import Mathlib

/-
Verification of the cluster-aware pipeline layer (pw-redis).

The development shallowly embeds the TypeScript sources:
  - calculateSlot / hashCRC16 / findNodeForSlot   (slot routing)
  - updateRedisClusterSlots                        (topology refresh parsing)
  - executePipelineForCluster                      (grouping + assembly)
  - clusterPipeline                                (stale-topology retry policy)
  - isRedirectionResponse / retryRedirectedCommands (redirect handling variant)

JavaScript runtime notions that the code relies on (truthiness, typeof,
Array index assignment with hole filling, String.prototype.includes,
String.prototype.trim, the lazy hash-tag regex) are modelled explicitly.
-/

namespace PwRedis

/-! ## A model of JavaScript runtime values -/

/-- Model of the JavaScript values the library inspects: null, undefined,
booleans, numbers (integral model), strings, arrays and plain objects. -/
inductive JSValue where
  | null
  | undefined
  | bool (b : Bool)
  | num (n : Int)
  | str (s : String)
  | arr (elems : List JSValue)
  | obj (fields : List (String × JSValue))
deriving Repr

/-- JavaScript truthiness of a value. -/
def JSValue.truthy : JSValue → Bool
  | .null => false
  | .undefined => false
  | .bool b => b
  | .num n => n != 0
  | .str s => s != ""
  | .arr _ => true
  | .obj _ => true

/-- Whether the JavaScript expression typeof v === a string literal naming
the object type holds: true for null, arrays and plain objects. -/
def JSValue.typeofObject : JSValue → Bool
  | .null => true
  | .arr _ => true
  | .obj _ => true
  | _ => false

/-- The JavaScript membership test of a property name on a value: true
exactly when the value is a plain object with a field of that name (arrays
in this model carry no named properties). -/
def JSValue.hasProp : JSValue → String → Bool
  | .obj fields, k => fields.any (fun f => f.1 == k)
  | _, _ => false

/-- The JavaScript read of index 0 of an array, undefined when empty;
non-arrays are not indexed by the code under study. -/
def JSValue.elem0 : JSValue → JSValue
  | .arr elems => elems.headD .undefined
  | _ => .undefined

/-- Translation of isRedirectionResponse from the redirect-handling variant:
Array.isArray(result) and result[0] truthy and typeof result[0] === object
and the name command occurs in result[0]. -/
def isRedirectionResponse (result : JSValue) : Bool :=
  match result with
  | .arr elems =>
      (JSValue.truthy (JSValue.elem0 (.arr elems))) &&
      (JSValue.typeofObject (JSValue.elem0 (.arr elems))) &&
      (JSValue.hasProp (JSValue.elem0 (.arr elems)) "command")
  | _ => false

/-! ## A model of thrown JavaScript errors -/

/-- A thrown JavaScript value, reduced to what the code inspects: whether it
is an instance of Error, and its message text. -/
structure JSError where
  isErrorInstance : Bool
  message : String
deriving DecidableEq, Repr

/-- Substring containment on character lists, the semantics of the
JavaScript includes test on strings. -/
def listContains (hay needle : List Char) : Bool :=
  match hay with
  | [] => needle.isEmpty
  | _ :: rest => needle.isPrefixOf hay || listContains rest needle

/-- The JavaScript test s.includes(sub). -/
def jsIncludes (s sub : String) : Bool :=
  listContains s.data sub.data

/-- The condition guarding the retry branch of clusterPipeline:
error instanceof Error and error.message.includes with the token slots. -/
def staleSymptom (e : JSError) : Bool :=
  e.isErrorInstance && jsIncludes e.message "slots"

/-! ## The slot calculator -/

/-- The characters removed by JavaScript String.prototype.trim: ECMAScript
WhiteSpace and LineTerminator code points. -/
def jsWhitespaceChar (c : Char) : Bool :=
  c.toNat = 0x9 || c.toNat = 0xa || c.toNat = 0xb || c.toNat = 0xc ||
  c.toNat = 0xd || c.toNat = 0x20 || c.toNat = 0xa0 || c.toNat = 0x1680 ||
  (0x2000 <= c.toNat && c.toNat <= 0x200a) ||
  c.toNat = 0x2028 || c.toNat = 0x2029 || c.toNat = 0x202f ||
  c.toNat = 0x205f || c.toNat = 0x3000 || c.toNat = 0xfeff

/-- The test key.trim().length === 0: every character is trim-whitespace. -/
def jsTrimEmpty (cs : List Char) : Bool :=
  cs.all jsWhitespaceChar

/-- The characters the regex dot matches without the dotall flag: every
character except the ECMAScript line terminators LF, CR, LINE SEPARATOR
and PARAGRAPH SEPARATOR. -/
def jsDotChar (c : Char) : Bool :=
  !(c.toNat = 0xa || c.toNat = 0xd || c.toNat = 0x2028 || c.toNat = 0x2029)

/-- Characters of a list strictly before its first closing brace, none when
no closing brace is reachable.  This is the lazy tail of the regex group:
every consumed character must be matched by the dot, so a line terminator
before the closing brace makes the group fail. -/
def splitAtClose : List Char → Option (List Char)
  | [] => none
  | c :: rest =>
      if c = '}' then some []
      else if jsDotChar c then (splitAtClose rest).map (c :: ·)
      else none

/-- The regex group content attempted right after an opening brace: one
dot-matched character, then everything up to the next closing brace.  The
group is lazy but non-empty, so the first content character may be any
character the dot matches, a closing brace included. -/
def tagAt : List Char → Option (List Char)
  | [] => none
  | c :: rest =>
      if jsDotChar c then (splitAtClose rest).map (c :: ·) else none

/-- The leftmost match of the hash-tag regex: scan for an opening brace; at
the first opening brace from which a non-empty group closed by a brace
exists, return the group content; otherwise continue scanning. -/
def matchHashTag : List Char → Option (List Char)
  | [] => none
  | c :: rest =>
      if c = '{' then
        match tagAt rest with
        | some content => some content
        | none => matchHashTag rest
      else matchHashTag rest

/-- The key actually hashed by calculateSlot: the first hash-tag content
when the regex matches, the whole key otherwise. -/
def reduceKey (s : String) : List Char :=
  match matchHashTag s.data with
  | some tag => tag
  | none => s.data

/-- UTF-8 encoding of one unicode scalar value, as a list of byte values;
the semantics of Buffer.from with utf8 on each character. -/
def utf8EncodeChar (c : Nat) : List Nat :=
  if c < 0x80 then [c]
  else if c < 0x800 then [0xc0 + c / 64, 0x80 + c % 64]
  else if c < 0x10000 then [0xe0 + c / 4096, 0x80 + c / 64 % 64, 0x80 + c % 64]
  else [0xf0 + c / 262144, 0x80 + c / 4096 % 64, 0x80 + c / 64 % 64, 0x80 + c % 64]

/-- UTF-8 bytes of a character list. -/
def utf8Bytes (cs : List Char) : List Nat :=
  cs.flatMap (fun c => utf8EncodeChar c.toNat)

/-- One iteration of the inner loop of hashCRC16: shift left, conditionally
xor the polynomial 0x1021 when bit 15 was set, then mask to 16 bits. -/
def crc16Round (crc : Nat) : Nat :=
  (if crc &&& 0x8000 ≠ 0 then (crc <<< 1) ^^^ 0x1021 else crc <<< 1) &&& 0xffff

/-- The inner for loop of hashCRC16, running the round a given number of
times (eight in the source). -/
def crcInner (crc : Nat) : Nat → Nat
  | 0 => crc
  | j + 1 => crcInner (crc16Round crc) j

/-- The body of hashCRC16 on a byte list: start from 0, xor each byte into
the high half, then run eight rounds. -/
def crc16BytesCode (bytes : List Nat) : Nat :=
  bytes.foldl (fun crc byte => crcInner (crc ^^^ (byte <<< 8)) 8) 0

/-- Translation of hashCRC16: the CRC loop over the UTF-8 bytes of the
string. -/
def hashCRC16 (cs : List Char) : Nat :=
  crc16BytesCode (utf8Bytes cs)

/-- Translation of calculateSlot.  The absent key (null or undefined) is
the none case; otherwise the hash-tag reduction is applied, the
empty-after-trim check is performed on the reduced key, and the CRC is
taken modulo 16384. -/
def calculateSlot (key : Option String) : Nat :=
  match key with
  | none => 0
  | some s =>
      let k := reduceKey s
      if jsTrimEmpty k then 0
      else hashCRC16 k % 16384

/-! ## Topology cache -/

/-- One flat slot range of the cache, as pushed by updateRedisClusterSlots.
The end slot is optional: when the raw shard reply has an odd number of
slot bounds the JavaScript code stores undefined as the end slot, and the
range comparison against undefined is then always false. -/
structure SlotRange where
  node : String
  startSlot : Nat
  endSlot : Option Nat
deriving DecidableEq, Repr

/-- One entry of the reply to the shard-topology query, in the shape the
destructuring pattern of updateRedisClusterSlots reads: element one is the
list of slot bounds, element three is the list of node detail arrays of
which the head is taken and its element at index one used as the node. -/
structure ShardEntry where
  label0 : String
  slotRanges : List Nat
  label2 : String
  nodes : List (List String)
deriving Repr

/-- The node identifier updateRedisClusterSlots reads from a shard entry:
index one of the first node detail array (the empty string standing for the
undefined produced by an out-of-range read). -/
def shardNodeId (s : ShardEntry) : String :=
  (s.nodes.headD []).getD 1 ""

/-- The for loop of updateRedisClusterSlots over one shard: consume the
slot bounds two at a time, each pair yielding one range for the shard's
node; a trailing unpaired bound yields a range with no end slot, exactly as
reading one past the end yields undefined in JavaScript. -/
def pairsToRanges (nodeId : String) : List Nat → List SlotRange
  | [] => []
  | [a] => [⟨nodeId, a, none⟩]
  | a :: b :: rest => ⟨nodeId, a, some b⟩ :: pairsToRanges nodeId rest

/-- Translation of updateRedisClusterSlots: flat-map every shard entry of
the reply into its slot ranges; the returned list is the whole new value of
the nodeSlotRanges field (the old snapshot is replaced wholesale). -/
def updateRedisClusterSlots (reply : List ShardEntry) : List SlotRange :=
  reply.flatMap (fun s => pairsToRanges (shardNodeId s) s.slotRanges)

/-- Translation of findNodeForSlot: the first range containing the slot,
comparisons against an undefined end slot being false. -/
def findNodeForSlot (nodeSlotRanges : List SlotRange) (slot : Nat) : Option String :=
  (nodeSlotRanges.find? (fun r =>
    decide (r.startSlot ≤ slot) &&
    (match r.endSlot with
     | some e => decide (slot ≤ e)
     | none => false))).map (·.node)

/-! ## Command grouping -/

/-- A command as the pipeline reads it: element zero is the operation name,
element one the routing key (absent when the array is shorter or the slot
holds undefined), the rest opaque arguments. -/
structure Command where
  name : String
  key : Option String
  args : List String
deriving DecidableEq, Repr

/-- The property key under which a command is grouped: the owning node, or
the string the JavaScript null is coerced to when used as an object key. -/
def nodeKeyFor (ranges : List SlotRange) (c : Command) : String :=
  match findNodeForSlot ranges (calculateSlot c.key) with
  | some n => n
  | none => "null"

/-- The per-node working set of executePipelineForCluster: the commands
pushed for the node and their original indices, in push order. -/
structure NodeBatch where
  commands : List Command
  originalIndices : List Nat
deriving DecidableEq, Repr

/-- One step of the grouping loop: push a command and its index onto the
batch of its key, creating the batch at the end of the record when the key
is new (JavaScript object keys keep insertion order). -/
def insertGrouped : List (String × NodeBatch) → String → Command → Nat →
    List (String × NodeBatch)
  | [], k, c, i => [(k, ⟨[c], [i]⟩)]
  | (k', b) :: rest, k, c, i =>
      if k' = k then (k', ⟨b.commands ++ [c], b.originalIndices ++ [i]⟩) :: rest
      else (k', b) :: insertGrouped rest k c i

/-- The grouping loop of executePipelineForCluster, folding over the
commands paired with their indices. -/
def groupFold (ranges : List SlotRange) :
    List (String × NodeBatch) → List (Nat × Command) → List (String × NodeBatch)
  | acc, [] => acc
  | acc, (i, c) :: rest => groupFold ranges (insertGrouped acc (nodeKeyFor ranges c) c i) rest

/-- The pipelinesByNode record built by executePipelineForCluster. -/
def groupCommands (ranges : List SlotRange) (commands : List Command) :
    List (String × NodeBatch) :=
  groupFold ranges [] commands.enum

/-! ## Result assembly -/

/-- JavaScript assignment results at index i: in-range assignment replaces
the element, out-of-range assignment pads with holes (read back as
undefined, modelled none) and appends. -/
def jsSetAt {β : Type} (res : List (Option β)) (i : Nat) (v : β) : List (Option β) :=
  if i < res.length then res.set i (some v)
  else res ++ List.replicate (i - res.length) none ++ [some v]

/-- A sequence of indexed writes into a results array. -/
def applyWrites {β : Type} (init : List (Option β)) (ws : List (Nat × β)) : List (Option β) :=
  ws.foldl (fun r (p : Nat × β) => jsSetAt r p.1 p.2) init

/-- The write-back phase of executePipelineForCluster for one node batch:
zip the original indices with the raw results of the batch and store each
raw result at its original index. -/
def writeBatch {β : Type} (execBatch : String → List Command → List β)
    (res : List (Option β)) (entry : String × NodeBatch) : List (Option β) :=
  applyWrites res (entry.2.originalIndices.zip (execBatch entry.1 entry.2.commands))

/-- The execution and write-back phase of executePipelineForCluster over
the node batches, taken in any completion order; starts from the empty
results array. -/
def assembleResults {β : Type} (execBatch : String → List Command → List β)
    (order : List (String × NodeBatch)) : List (Option β) :=
  order.foldl (writeBatch execBatch) []

/-- Translation of executePipelineForCluster, the per-node batched
execution abstracted as the oracle execBatch: group the commands by node,
execute every node batch, and write each raw result back at the original
index of its command. -/
def executePipelineForCluster {β : Type} (ranges : List SlotRange)
    (execBatch : String → List Command → List β) (commands : List Command) :
    List (Option β) :=
  assembleResults execBatch (groupCommands ranges commands)

/-! ## The orchestrator -/

/-- Translation of clusterPipeline, the whole batching-and-execution cycle
abstracted as the fallible oracle attempt taking the current slot-range
snapshot and the commands.  Returns the outcome, the final snapshot, and
how many topology refreshes ran. -/
def clusterPipeline {R : Type}
    (attempt : List SlotRange → List Command → Except JSError R)
    (shardsReply : List ShardEntry) (topo : List SlotRange)
    (commands : List Command) : Except JSError R × List SlotRange × Nat :=
  match attempt topo commands with
  | .ok r => (.ok r, topo, 0)
  | .error e =>
      if staleSymptom e then
        let topo2 := updateRedisClusterSlots shardsReply
        (attempt topo2 commands, topo2, 1)
      else (.error e, topo, 0)

/-! ## Redirect retry coordinator -/

/-- A redirected command together with its original position, as in the
redirect-handling variant. -/
structure RedisCommand where
  command : Command
  index : Nat
deriving DecidableEq, Repr

/-- A stored per-command outcome: the error part (null when absent) and the
value part. -/
def ResPair : Type := Option JSError × JSValue

/-- What one retry of retryRedirectedCommands stores: the value on success;
an invalid-command error when the operation name is not a function on the
client; the caught error, wrapped into an Error instance when the thrown
value was not one, on failure. -/
def retryOutcome (isFn : String → Bool) (runCmd : Command → Except JSError JSValue)
    (c : Command) : ResPair :=
  if isFn c.name then
    match runCmd c with
    | .ok v => (none, v)
    | .error e =>
        (some (if e.isErrorInstance then e else ⟨true, e.message⟩), JSValue.null)
  else (some ⟨true, "Invalid command: " ++ c.name⟩, JSValue.null)

/-- Translation of retryRedirectedCommands: every redirected command is
retried through the single-command path (the oracle runCmd), all failures
are caught, and the outcome is stored at the command's original index in
the shared results array. -/
def retryRedirectedCommands (isFn : String → Bool)
    (runCmd : Command → Except JSError JSValue)
    (redirectedCommands : List RedisCommand)
    (results : List (Option ResPair)) : List (Option ResPair) :=
  applyWrites results
    (redirectedCommands.map (fun rc => (rc.index, retryOutcome isFn runCmd rc.command)))

/-! ## Lemmas about indexed writes -/

theorem jsSetAt_length {β : Type} (res : List (Option β)) (i : Nat) (v : β) :
    (jsSetAt res i v).length = max res.length (i + 1) := by
  unfold jsSetAt
  split
  · simp; omega
  · simp; omega

theorem jsSetAt_getD {β : Type} (res : List (Option β)) (i : Nat) (v : β) (j : Nat) :
    (jsSetAt res i v).getD j none = if j = i then some v else res.getD j none := by
  simp only [List.getD_eq_getElem?_getD]
  unfold jsSetAt
  split
  · rename_i hlt
    rw [List.getElem?_set]
    rcases eq_or_ne i j with rfl | hne
    · simp [hlt]
    · simp [hne, Ne.symm hne]
  · rename_i hge
    push_neg at hge
    have hlen : (res ++ List.replicate (i - res.length) (none : Option β)).length = i := by
      simp; omega
    rcases eq_or_ne j i with rfl | hne
    · rw [if_pos rfl, List.getElem?_append_right (le_of_eq hlen), hlen]
      simp
    · rw [if_neg hne]
      rcases lt_or_ge j i with hj | hj
      · rw [List.getElem?_append_left (by rw [hlen]; exact hj)]
        rcases lt_or_ge j res.length with hj2 | hj2
        · rw [List.getElem?_append_left hj2]
        · rw [List.getElem?_append_right hj2, List.getElem?_eq_none hj2,
            List.getElem?_replicate]
          simp only [Option.getD_none]
          rw [if_pos (by omega)]
          rfl
      · rw [List.getElem?_eq_none (by simp; omega),
          List.getElem?_eq_none (by omega : res.length ≤ j)]

theorem applyWrites_append {β : Type} (init : List (Option β)) (ws1 ws2 : List (Nat × β)) :
    applyWrites init (ws1 ++ ws2) = applyWrites (applyWrites init ws1) ws2 :=
  List.foldl_append _ _ _ _

theorem applyWrites_getD_not_mem {β : Type} (ws : List (Nat × β)) (init : List (Option β))
    (j : Nat) (h : j ∉ ws.map Prod.fst) :
    (applyWrites init ws).getD j none = init.getD j none := by
  induction ws generalizing init with
  | nil => rfl
  | cons p rest ih =>
      simp only [List.map_cons, List.mem_cons, not_or] at h
      show (applyWrites (jsSetAt init p.1 p.2) rest).getD j none = _
      rw [ih _ h.2, jsSetAt_getD, if_neg h.1]

theorem applyWrites_getD_mem {β : Type} (ws : List (Nat × β)) (init : List (Option β))
    (i : Nat) (v : β) (hnd : (ws.map Prod.fst).Nodup) (hmem : (i, v) ∈ ws) :
    (applyWrites init ws).getD i none = some v := by
  induction ws generalizing init with
  | nil => exact absurd hmem (List.not_mem_nil _)
  | cons p rest ih =>
      simp only [List.map_cons, List.nodup_cons] at hnd
      rcases List.mem_cons.mp hmem with rfl | hmem
      · show (applyWrites (jsSetAt init i v) rest).getD i none = some v
        rw [applyWrites_getD_not_mem _ _ _ hnd.1, jsSetAt_getD, if_pos rfl]
      · exact ih _ hnd.2 hmem

theorem applyWrites_length_mono {β : Type} (ws : List (Nat × β)) (init : List (Option β)) :
    init.length ≤ (applyWrites init ws).length := by
  induction ws generalizing init with
  | nil => exact le_refl _
  | cons p rest ih =>
      refine le_trans ?_ (ih (jsSetAt init p.1 p.2))
      rw [jsSetAt_length]
      omega

theorem applyWrites_length_lb {β : Type} (ws : List (Nat × β)) (init : List (Option β))
    (i : Nat) (v : β) (hmem : (i, v) ∈ ws) :
    i < (applyWrites init ws).length := by
  induction ws generalizing init with
  | nil => exact absurd hmem (List.not_mem_nil _)
  | cons p rest ih =>
      rcases List.mem_cons.mp hmem with rfl | hmem
      · show i < (applyWrites (jsSetAt init i v) rest).length
        refine lt_of_lt_of_le ?_ (applyWrites_length_mono rest _)
        rw [jsSetAt_length]
        omega
      · exact ih _ hmem

theorem applyWrites_length_ub {β : Type} (ws : List (Nat × β)) (init : List (Option β))
    (n : Nat) (hub : ∀ p ∈ ws, p.1 < n) (hinit : init.length ≤ n) :
    (applyWrites init ws).length ≤ n := by
  induction ws generalizing init with
  | nil => exact hinit
  | cons p rest ih =>
      refine ih _ (fun q hq => hub q (List.mem_cons_of_mem _ hq)) ?_
      rw [jsSetAt_length]
      have := hub p (List.mem_cons_self _ _)
      omega

/-! ## Lemmas about the grouping loop -/

/-- The indexed commands of an invocation that group under a given key. -/
def filterFor (ranges : List SlotRange) (k : String) (l : List (Nat × Command)) :
    List (Nat × Command) :=
  l.filter (fun p => nodeKeyFor ranges p.2 == k)

/-- Extension of an optional batch by a list of indexed commands, the shape
in which the grouping loop grows one record entry. -/
def extendBatch (b : Option NodeBatch) (l : List (Nat × Command)) : Option NodeBatch :=
  match b with
  | some b => some ⟨b.commands ++ l.map Prod.snd, b.originalIndices ++ l.map Prod.fst⟩
  | none => if l.isEmpty then none else some ⟨l.map Prod.snd, l.map Prod.fst⟩

theorem extendBatch_nil (b : Option NodeBatch) : extendBatch b [] = b := by
  cases b <;> simp [extendBatch]

theorem extendBatch_cons (b : Option NodeBatch) (i : Nat) (c : Command)
    (l : List (Nat × Command)) :
    extendBatch (extendBatch b [(i, c)]) l = extendBatch b ((i, c) :: l) := by
  cases b <;> simp [extendBatch]

theorem insertGrouped_lookup (acc : List (String × NodeBatch)) (k : String)
    (c : Command) (i : Nat) (k' : String) :
    (insertGrouped acc k c i).lookup k' =
      if k' = k then extendBatch (acc.lookup k') [(i, c)] else acc.lookup k' := by
  induction acc with
  | nil =>
      rcases eq_or_ne k' k with rfl | hne
      · simp [insertGrouped, List.lookup, extendBatch]
      · have hb : (k' == k) = false := beq_eq_false_iff_ne.mpr hne
        simp [insertGrouped, List.lookup, hb, hne]
  | cons e rest ih =>
      obtain ⟨k0, b0⟩ := e
      show (insertGrouped ((k0, b0) :: rest) k c i).lookup k' = _
      rcases eq_or_ne k0 k with rfl | hk0
      · simp only [insertGrouped, if_pos rfl]
        rcases eq_or_ne k' k0 with rfl | hne
        · simp [List.lookup, extendBatch]
        · have hb : (k' == k0) = false := beq_eq_false_iff_ne.mpr hne
          simp [List.lookup, hb, hne]
      · simp only [insertGrouped, if_neg hk0]
        rcases eq_or_ne k' k0 with rfl | hne
        · have : k' ≠ k := hk0
          simp [List.lookup, this]
        · have hb : (k' == k0) = false := beq_eq_false_iff_ne.mpr hne
          simp [List.lookup, hb, ih]

theorem insertGrouped_keys (acc : List (String × NodeBatch)) (k : String)
    (c : Command) (i : Nat) :
    (insertGrouped acc k c i).map Prod.fst =
      if k ∈ acc.map Prod.fst then acc.map Prod.fst else acc.map Prod.fst ++ [k] := by
  induction acc with
  | nil => simp [insertGrouped]
  | cons e rest ih =>
      obtain ⟨k0, b0⟩ := e
      rcases eq_or_ne k0 k with rfl | hk0
      · simp [insertGrouped]
      · simp only [insertGrouped, if_neg hk0, List.map_cons, List.mem_cons]
        have : ¬ k = k0 := fun h => hk0 h.symm
        rcases em (k ∈ rest.map Prod.fst) with hmem | hmem
        · simp [this, hmem, ih]
        · simp [this, hmem, ih]

theorem insertGrouped_mem_keys (acc : List (String × NodeBatch)) (k key : String)
    (c : Command) (i : Nat) :
    k ∈ (insertGrouped acc key c i).map Prod.fst ↔ k ∈ acc.map Prod.fst ∨ k = key := by
  rw [insertGrouped_keys]
  split
  · rename_i hmem
    constructor
    · exact fun h => Or.inl h
    · rintro (h | rfl)
      · exact h
      · exact hmem
  · simp

theorem insertGrouped_keys_nodup (acc : List (String × NodeBatch)) (k : String)
    (c : Command) (i : Nat) (h : (acc.map Prod.fst).Nodup) :
    ((insertGrouped acc k c i).map Prod.fst).Nodup := by
  rw [insertGrouped_keys]
  split
  · exact h
  · rename_i hmem
    simp [List.nodup_append, h, hmem]

theorem groupFold_lookup (ranges : List SlotRange) (pending : List (Nat × Command)) :
    ∀ (acc : List (String × NodeBatch)) (k : String),
      (groupFold ranges acc pending).lookup k =
        extendBatch (acc.lookup k) (filterFor ranges k pending) := by
  induction pending with
  | nil => intro acc k; simp [groupFold, filterFor, extendBatch_nil]
  | cons p rest ih =>
      intro acc k
      obtain ⟨i, c⟩ := p
      show (groupFold ranges (insertGrouped acc (nodeKeyFor ranges c) c i) rest).lookup k = _
      rw [ih, insertGrouped_lookup]
      by_cases hk : k = nodeKeyFor ranges c
      · rw [if_pos hk, extendBatch_cons]
        have heq : filterFor ranges k ((i, c) :: rest) = (i, c) :: filterFor ranges k rest := by
          simp [filterFor, List.filter_cons, hk]
        rw [heq]
      · rw [if_neg hk]
        have hb : (nodeKeyFor ranges c == k) = false :=
          beq_eq_false_iff_ne.mpr (fun h => hk h.symm)
        have heq : filterFor ranges k ((i, c) :: rest) = filterFor ranges k rest := by
          simp [filterFor, List.filter_cons, hb]
        rw [heq]

theorem groupFold_mem_keys (ranges : List SlotRange) (pending : List (Nat × Command)) :
    ∀ (acc : List (String × NodeBatch)) (k : String),
      k ∈ (groupFold ranges acc pending).map Prod.fst ↔
        (k ∈ acc.map Prod.fst ∨ ∃ p ∈ pending, nodeKeyFor ranges p.2 = k) := by
  induction pending with
  | nil => intro acc k; simp [groupFold]
  | cons p rest ih =>
      intro acc k
      obtain ⟨i, c⟩ := p
      show k ∈ (groupFold ranges (insertGrouped acc (nodeKeyFor ranges c) c i) rest).map
        Prod.fst ↔ _
      rw [ih, insertGrouped_mem_keys]
      constructor
      · rintro ((h | rfl) | ⟨q, hq, hk⟩)
        · exact Or.inl h
        · exact Or.inr ⟨(i, c), List.mem_cons_self _ _, rfl⟩
        · exact Or.inr ⟨q, List.mem_cons_of_mem _ hq, hk⟩
      · rintro (h | ⟨q, hq, hk⟩)
        · exact Or.inl (Or.inl h)
        · rcases List.mem_cons.mp hq with rfl | hq
          · exact Or.inl (Or.inr hk.symm)
          · exact Or.inr ⟨q, hq, hk⟩

theorem groupFold_keys_nodup (ranges : List SlotRange) (pending : List (Nat × Command)) :
    ∀ (acc : List (String × NodeBatch)), (acc.map Prod.fst).Nodup →
      ((groupFold ranges acc pending).map Prod.fst).Nodup := by
  induction pending with
  | nil => intro acc h; exact h
  | cons p rest ih =>
      intro acc h
      obtain ⟨i, c⟩ := p
      exact ih _ (insertGrouped_keys_nodup _ _ _ _ h)

theorem groupCommands_lookup (ranges : List SlotRange) (commands : List Command)
    (k : String) :
    (groupCommands ranges commands).lookup k =
      extendBatch none (filterFor ranges k commands.enum) :=
  groupFold_lookup ranges commands.enum [] k

theorem groupCommands_keys_nodup (ranges : List SlotRange) (commands : List Command) :
    ((groupCommands ranges commands).map Prod.fst).Nodup :=
  groupFold_keys_nodup ranges commands.enum [] (by simp)

theorem groupCommands_mem_keys (ranges : List SlotRange) (commands : List Command)
    (k : String) :
    k ∈ (groupCommands ranges commands).map Prod.fst ↔
      ∃ p ∈ commands.enum, nodeKeyFor ranges p.2 = k := by
  rw [groupCommands, groupFold_mem_keys]
  simp

/-! ## Association-list facts -/

theorem lookup_of_mem_nodup {β : Type} (l : List (String × β)) (k : String) (b : β)
    (hnd : (l.map Prod.fst).Nodup) (hmem : (k, b) ∈ l) : l.lookup k = some b := by
  induction l with
  | nil => exact absurd hmem (List.not_mem_nil _)
  | cons e rest ih =>
      obtain ⟨k0, b0⟩ := e
      rw [List.map_cons, List.nodup_cons] at hnd
      rcases List.mem_cons.mp hmem with heq | hmem2
      · injection heq with h1 h2
        subst h1
        subst h2
        simp [List.lookup]
      · have hk : (k == k0) = false := by
          refine beq_eq_false_iff_ne.mpr ?_
          rintro rfl
          exact hnd.1 (List.mem_map.mpr ⟨(k, b), hmem2, rfl⟩)
        simp only [List.lookup, hk]
        exact ih hnd.2 hmem2

theorem mem_of_lookup_eq_some {β : Type} (l : List (String × β)) (k : String) (b : β)
    (h : l.lookup k = some b) : (k, b) ∈ l := by
  induction l with
  | nil => simp [List.lookup] at h
  | cons e rest ih =>
      obtain ⟨k0, b0⟩ := e
      rcases eq_or_ne k k0 with rfl | hne
      · simp only [List.lookup, beq_self_eq_true] at h
        obtain rfl : b0 = b := by simpa using h
        exact List.mem_cons_self _ _
      · have hb : (k == k0) = false := beq_eq_false_iff_ne.mpr hne
        simp only [List.lookup, hb] at h
        exact List.mem_cons_of_mem _ (ih h)

/-! ## A partition permutation -/

theorem flatMap_filter_perm {α : Type} (keyOf : α → String) :
    ∀ (ks : List String) (l : List α), ks.Nodup → (∀ a ∈ l, keyOf a ∈ ks) →
      (ks.flatMap (fun k => l.filter (fun a => keyOf a == k))).Perm l := by
  intro ks
  induction ks with
  | nil =>
      intro l _ hcov
      have : l = [] := List.eq_nil_iff_forall_not_mem.mpr (fun a ha => by
        simpa using hcov a ha)
      simp [this]
  | cons k rest ih =>
      intro l hnd hcov
      simp only [List.nodup_cons] at hnd
      rw [List.flatMap_cons]
      have hsub : ∀ k' ∈ rest, l.filter (fun a => keyOf a == k') =
          (l.filter (fun a => !(keyOf a == k))).filter (fun a => keyOf a == k') := by
        intro k' hk'
        rw [List.filter_filter]
        refine (List.filter_congr ?_).symm
        intro a _
        rcases eq_or_ne (keyOf a) k' with heq | hne
        · have hne2 : ¬ k' = k := fun h => hnd.1 (h ▸ hk')
          simp [heq, hne2]
        · simp [hne]
      rw [List.flatMap_congr hsub]
      have hcov2 : ∀ a ∈ l.filter (fun a => !(keyOf a == k)), keyOf a ∈ rest := by
        intro a ha
        rw [List.mem_filter] at ha
        rcases List.mem_cons.mp (hcov a ha.1) with h | h
        · simp [h] at ha
        · exact h
      have h1 := List.Perm.append_left (l.filter (fun a => keyOf a == k))
        (ih _ hnd.2 hcov2)
      exact h1.trans (List.filter_append_perm _ l)

/-! ## The assembly chain -/

theorem assembleResults_eq_applyWrites {β : Type} (execBatch : String → List Command → List β) :
    ∀ (order : List (String × NodeBatch)) (init : List (Option β)),
      order.foldl (writeBatch execBatch) init =
        applyWrites init (order.flatMap
          (fun e => e.2.originalIndices.zip (execBatch e.1 e.2.commands))) := by
  intro order
  induction order with
  | nil => intro init; rfl
  | cons e rest ih =>
      intro init
      rw [List.foldl_cons, ih, List.flatMap_cons, applyWrites_append]
      rfl

theorem mem_group_eq_filter (ranges : List SlotRange) (commands : List Command)
    (k : String) (b : NodeBatch)
    (hmem : (k, b) ∈ groupCommands ranges commands) :
    b.commands = (filterFor ranges k commands.enum).map Prod.snd ∧
    b.originalIndices = (filterFor ranges k commands.enum).map Prod.fst := by
  have hlk := lookup_of_mem_nodup _ _ _ (groupCommands_keys_nodup ranges commands) hmem
  rw [groupCommands_lookup] at hlk
  unfold extendBatch at hlk
  by_cases hf : (filterFor ranges k commands.enum).isEmpty
  · rw [if_pos hf] at hlk
    exact absurd hlk (by simp)
  · rw [if_neg hf] at hlk
    obtain rfl : b = ⟨(filterFor ranges k commands.enum).map Prod.snd,
        (filterFor ranges k commands.enum).map Prod.fst⟩ := by
      injection hlk with h
      exact h.symm
    exact ⟨rfl, rfl⟩

theorem writes_of_group {β : Type} (ranges : List SlotRange)
    (execBatch : String → List Command → List β) (execCmd : String → Command → β)
    (commands : List Command) (k : String) (b : NodeBatch)
    (hexec : ∀ n cs, execBatch n cs = cs.map (execCmd n))
    (hmem : (k, b) ∈ groupCommands ranges commands) :
    b.originalIndices.zip (execBatch k b.commands) =
      (filterFor ranges k commands.enum).map
        (fun p => (p.1, execCmd (nodeKeyFor ranges p.2) p.2)) := by
  obtain ⟨hc, hi⟩ := mem_group_eq_filter ranges commands k b hmem
  rw [hc, hi, hexec, List.map_map, List.zip_map']
  refine List.map_congr_left ?_
  intro p hp
  have : nodeKeyFor ranges p.2 = k := by
    have := (List.mem_filter.mp hp).2
    simpa [filterFor] using this
  simp [Function.comp, this]

theorem writes_perm {β : Type} (ranges : List SlotRange)
    (execBatch : String → List Command → List β) (execCmd : String → Command → β)
    (commands : List Command) (order : List (String × NodeBatch))
    (hexec : ∀ n cs, execBatch n cs = cs.map (execCmd n))
    (horder : order.Perm (groupCommands ranges commands)) :
    (order.flatMap (fun e => e.2.originalIndices.zip (execBatch e.1 e.2.commands))).Perm
      (commands.enum.map (fun p => (p.1, execCmd (nodeKeyFor ranges p.2) p.2))) := by
  have hstep : order.flatMap
      (fun e => e.2.originalIndices.zip (execBatch e.1 e.2.commands)) =
      (order.map Prod.fst).flatMap (fun k => (filterFor ranges k commands.enum).map
        (fun p => (p.1, execCmd (nodeKeyFor ranges p.2) p.2))) := by
    rw [List.flatMap_map]
    refine List.flatMap_congr ?_
    intro e he
    exact writes_of_group ranges execBatch execCmd commands e.1 e.2 hexec
      (horder.mem_iff.mp he)
  rw [hstep, ← List.map_flatMap]
  have hknd : (order.map Prod.fst).Nodup :=
    ((horder.map Prod.fst).symm).nodup (groupCommands_keys_nodup ranges commands)
  have hcov : ∀ p ∈ commands.enum, nodeKeyFor ranges p.2 ∈ order.map Prod.fst := by
    intro p hp
    have : nodeKeyFor ranges p.2 ∈ (groupCommands ranges commands).map Prod.fst :=
      (groupCommands_mem_keys ranges commands _).mpr ⟨p, hp, rfl⟩
    exact ((horder.map Prod.fst).mem_iff).mpr this
  exact (flatMap_filter_perm (fun p => nodeKeyFor ranges p.2)
    (order.map Prod.fst) commands.enum hknd hcov).map _

theorem assembleResults_spec {β : Type} (ranges : List SlotRange)
    (execBatch : String → List Command → List β) (execCmd : String → Command → β)
    (commands : List Command) (order : List (String × NodeBatch))
    (hexec : ∀ n cs, execBatch n cs = cs.map (execCmd n))
    (horder : order.Perm (groupCommands ranges commands)) :
    (assembleResults execBatch order).length = commands.length ∧
    ∀ i (hi : i < commands.length),
      (assembleResults execBatch order).getD i none =
        some (execCmd (nodeKeyFor ranges commands[i]) commands[i]) := by
  have hperm := writes_perm ranges execBatch execCmd commands order hexec horder
  have hrw : assembleResults execBatch order = applyWrites []
      (order.flatMap (fun e => e.2.originalIndices.zip (execBatch e.1 e.2.commands))) :=
    assembleResults_eq_applyWrites execBatch order []
  set w : Nat × Command → Nat × β :=
    fun p => (p.1, execCmd (nodeKeyFor ranges p.2) p.2)
  set ws := order.flatMap (fun e => e.2.originalIndices.zip (execBatch e.1 e.2.commands))
  have hfst : (commands.enum.map w).map Prod.fst = List.range commands.length := by
    rw [List.map_map]
    have : Prod.fst ∘ w = (Prod.fst : Nat × Command → Nat) := by
      funext p
      rfl
    rw [this, List.enum_map_fst]
  have hnd : (ws.map Prod.fst).Nodup := by
    refine ((hperm.map Prod.fst).symm).nodup ?_
    rw [hfst]
    exact List.nodup_range _
  have hmemw : ∀ i (hi : i < commands.length), (i, execCmd
      (nodeKeyFor ranges commands[i]) commands[i]) ∈ ws := by
    intro i hi
    refine (hperm.mem_iff).mpr ?_
    refine List.mem_map.mpr ⟨(i, commands[i]), ?_, rfl⟩
    exact List.mem_enum_iff_getElem?.mpr (List.getElem?_eq_getElem hi)
  constructor
  · rw [hrw]
    rcases Nat.eq_zero_or_pos commands.length with hz | hpos
    · have hc : commands = [] := List.length_eq_zero.mp hz
      subst hc
      have : ws = [] := List.Perm.eq_nil (by simpa using hperm)
      simp [applyWrites, this]
    · have hub : (applyWrites [] ws).length ≤ commands.length := by
        refine applyWrites_length_ub ws [] commands.length ?_ (by simp)
        intro p hp
        have := (hperm.mem_iff).mp hp
        obtain ⟨q, hq, rfl⟩ := List.mem_map.mp this
        have := List.mem_enum_iff_getElem?.mp hq
        have : q.1 < commands.length := (List.getElem?_eq_some.mp this).1
        exact this
      have hlb : commands.length - 1 < (applyWrites [] ws).length :=
        applyWrites_length_lb ws [] _ _ (hmemw (commands.length - 1) (by omega))
      omega
  · intro i hi
    rw [hrw]
    exact applyWrites_getD_mem ws [] _ _ hnd (hmemw i hi)

/-! ## Claim theorems: grouping and order preservation -/

/-- C1: for every input command list, the pipeline returns an array whose
length equals the input length and whose element at index i is the raw
outcome the executing node produced for input command i, regardless of how
the commands were grouped into per-node batches and of the order in which
the node batches complete: assembling under any permutation of the node
batches yields exactly the canonical result array. -/
theorem C1_order_preservation {β : Type} (ranges : List SlotRange)
    (execBatch : String → List Command → List β) (execCmd : String → Command → β)
    (commands : List Command) (order : List (String × NodeBatch))
    (hexec : ∀ n cs, execBatch n cs = cs.map (execCmd n))
    (horder : order.Perm (groupCommands ranges commands)) :
    (executePipelineForCluster ranges execBatch commands).length = commands.length ∧
    (∀ i (hi : i < commands.length),
      (executePipelineForCluster ranges execBatch commands).getD i none =
        some (execCmd (nodeKeyFor ranges commands[i]) commands[i])) ∧
    assembleResults execBatch order = executePipelineForCluster ranges execBatch commands := by
  have h1 := assembleResults_spec ranges execBatch execCmd commands
    (groupCommands ranges commands) hexec (List.Perm.refl _)
  have h2 := assembleResults_spec ranges execBatch execCmd commands order hexec horder
  have hdef : executePipelineForCluster ranges execBatch commands =
      assembleResults execBatch (groupCommands ranges commands) := rfl
  refine ⟨hdef ▸ h1.1, fun i hi => hdef ▸ h1.2 i hi, ?_⟩
  rw [hdef]
  refine List.ext_getElem (h2.1.trans h1.1.symm) ?_
  intro n hn1 hn2
  have hn : n < commands.length := h2.1 ▸ hn1
  have e1 := h2.2 n hn
  have e2 := h1.2 n hn
  rw [List.getD_eq_getElem _ _ hn1] at e1
  rw [List.getD_eq_getElem _ _ hn2] at e2
  rw [e1, e2]

theorem C1_order_preservation_witness :
    (executePipelineForCluster
        [⟨"A", 0, some 8000⟩, ⟨"B", 8001, some 16383⟩]
        (fun n cs => cs.map (fun c => n ++ ":" ++ c.name))
        [⟨"set", some "foo", ["v1"]⟩, ⟨"get", some "bar", []⟩,
         ⟨"get", some "foo", []⟩]).length = 3 ∧
    assembleResults (fun n cs => cs.map (fun c => n ++ ":" ++ c.name))
        ((groupCommands [⟨"A", 0, some 8000⟩, ⟨"B", 8001, some 16383⟩]
          [⟨"set", some "foo", ["v1"]⟩, ⟨"get", some "bar", []⟩,
           ⟨"get", some "foo", []⟩]).reverse) =
      executePipelineForCluster
        [⟨"A", 0, some 8000⟩, ⟨"B", 8001, some 16383⟩]
        (fun n cs => cs.map (fun c => n ++ ":" ++ c.name))
        [⟨"set", some "foo", ["v1"]⟩, ⟨"get", some "bar", []⟩,
         ⟨"get", some "foo", []⟩] :=
  (fun h => ⟨h.1, h.2.2⟩)
    (C1_order_preservation _ _ (fun n c => n ++ ":" ++ c.name) _ _
      (fun n cs => rfl) (List.reverse_perm _))

/-- C3: for every command list and every topology-cache state, the grouping
step has pairwise-distinct node keys; the batch recorded under any key is
exactly the ordered sublist of indexed input commands owned by that key,
pairing each command with its original index; every indexed command occurs
in the batch of its own key; and commands whose owner lookup returns none
all land in the bucket keyed by the JavaScript null coercion. -/
theorem C3_grouping_completeness (ranges : List SlotRange) (commands : List Command) :
    ((groupCommands ranges commands).map Prod.fst).Nodup ∧
    (∀ k b, (k, b) ∈ groupCommands ranges commands →
      b.originalIndices.zip b.commands = filterFor ranges k commands.enum) ∧
    (∀ p ∈ commands.enum,
      ∃ b, (nodeKeyFor ranges p.2, b) ∈ groupCommands ranges commands ∧
        p ∈ b.originalIndices.zip b.commands) ∧
    (∀ p ∈ commands.enum, findNodeForSlot ranges (calculateSlot p.2.key) = none →
      ∃ b, ("null", b) ∈ groupCommands ranges commands ∧
        p ∈ b.originalIndices.zip b.commands) := by
  have hzip : ∀ k b, (k, b) ∈ groupCommands ranges commands →
      b.originalIndices.zip b.commands = filterFor ranges k commands.enum := by
    intro k b hmem
    obtain ⟨hc, hi⟩ := mem_group_eq_filter ranges commands k b hmem
    rw [hc, hi, List.zip_map']
    simp
  have hall : ∀ p ∈ commands.enum,
      ∃ b, (nodeKeyFor ranges p.2, b) ∈ groupCommands ranges commands ∧
        p ∈ b.originalIndices.zip b.commands := by
    intro p hp
    have hpf : p ∈ filterFor ranges (nodeKeyFor ranges p.2) commands.enum :=
      List.mem_filter.mpr ⟨hp, by simp [filterFor]⟩
    have hne : (filterFor ranges (nodeKeyFor ranges p.2) commands.enum).isEmpty = false := by
      rcases hmem : filterFor ranges (nodeKeyFor ranges p.2) commands.enum with _ | _
      · rw [hmem] at hpf
        exact absurd hpf (List.not_mem_nil _)
      · rfl
    have hlk := groupCommands_lookup ranges commands (nodeKeyFor ranges p.2)
    rw [extendBatch, hne] at hlk
    simp only [Bool.false_eq_true, if_false] at hlk
    refine ⟨_, mem_of_lookup_eq_some _ _ _ hlk, ?_⟩
    rw [hzip _ _ (mem_of_lookup_eq_some _ _ _ hlk)]
    exact hpf
  refine ⟨groupCommands_keys_nodup ranges commands, hzip, hall, ?_⟩
  intro p hp hnone
  have : nodeKeyFor ranges p.2 = "null" := by
    unfold nodeKeyFor
    rw [hnone]
  exact this ▸ hall p hp

theorem C3_grouping_completeness_witness :
    ((groupCommands [⟨"A", 0, some 8000⟩, ⟨"B", 8001, some 16383⟩]
        [⟨"set", some "foo", ["v1"]⟩, ⟨"get", some "bar", []⟩]).map Prod.fst).Nodup ∧
    ∃ b, (nodeKeyFor [⟨"A", 0, some 8000⟩, ⟨"B", 8001, some 16383⟩]
          ⟨"set", some "foo", ["v1"]⟩, b) ∈
        groupCommands [⟨"A", 0, some 8000⟩, ⟨"B", 8001, some 16383⟩]
          [⟨"set", some "foo", ["v1"]⟩, ⟨"get", some "bar", []⟩] ∧
        ((0 : Nat), (⟨"set", some "foo", ["v1"]⟩ : Command)) ∈
          b.originalIndices.zip b.commands :=
  (fun h => ⟨h.1, h.2.2.1 (0, ⟨"set", some "foo", ["v1"]⟩) (by decide)⟩)
    (C3_grouping_completeness _ _)

/-- C7: with pairwise-distinct original indices, the retry coordinator
stores an outcome at every redirected command original index, and whenever
an individual retry fails, because the operation name is not a function on
the client or because the call raised, the stored entry is an error paired
with the null value rather than a propagated exception. -/
theorem C7_retry_stores_outcomes (isFn : String → Bool)
    (runCmd : Command → Except JSError JSValue)
    (rcmds : List RedisCommand) (results : List (Option ResPair))
    (hnd : (rcmds.map RedisCommand.index).Nodup) :
    ∀ rc ∈ rcmds,
      (retryRedirectedCommands isFn runCmd rcmds results).getD rc.index none =
        some (retryOutcome isFn runCmd rc.command) ∧
      ((isFn rc.command.name = false ∨ (∃ e, runCmd rc.command = Except.error e)) →
        ∃ err, retryOutcome isFn runCmd rc.command = (some err, JSValue.null)) := by
  intro rc hrc
  constructor
  · unfold retryRedirectedCommands
    refine applyWrites_getD_mem _ _ _ _ ?_ ?_
    · have : (rcmds.map (fun rc => (rc.index, retryOutcome isFn runCmd rc.command))).map
          Prod.fst = rcmds.map RedisCommand.index := by
        rw [List.map_map]
        rfl
      rw [this]
      exact hnd
    · exact List.mem_map.mpr ⟨rc, hrc, rfl⟩
  · intro hfail
    by_cases hf : isFn rc.command.name
    · rcases hfail with hfalse | ⟨e, he⟩
      · rw [hf] at hfalse
        exact absurd hfalse (by simp)
      · refine ⟨if e.isErrorInstance then e else ⟨true, e.message⟩, ?_⟩
        simp [retryOutcome, hf, he]
    · refine ⟨⟨true, "Invalid command: " ++ rc.command.name⟩, ?_⟩
      simp only [retryOutcome, Bool.not_eq_true] at hf
      simp [retryOutcome, hf]

theorem C7_retry_stores_outcomes_witness :
    (retryRedirectedCommands (fun n => n == "get")
        (fun _ => Except.error ⟨false, "boom"⟩)
        [⟨⟨"zap", some "k", []⟩, 1⟩, ⟨⟨"get", some "k", []⟩, 0⟩]
        [none, none]).getD 1 none =
      some (retryOutcome (fun n => n == "get")
        (fun _ => Except.error ⟨false, "boom"⟩) ⟨"zap", some "k", []⟩) ∧
    (∃ err, retryOutcome (fun n => n == "get")
        (fun _ => Except.error ⟨false, "boom"⟩) ⟨"zap", some "k", []⟩ =
      (some err, JSValue.null)) :=
  (fun h => ⟨h.1, h.2 (Or.inl rfl)⟩)
    (C7_retry_stores_outcomes (fun n => n == "get")
      (fun _ => Except.error ⟨false, "boom"⟩)
      [⟨⟨"zap", some "k", []⟩, 1⟩, ⟨⟨"get", some "k", []⟩, 0⟩]
      [none, none] (by decide) ⟨⟨"zap", some "k", []⟩, 1⟩ (List.mem_cons_self _ _))

/-! ## Hash-tag lemmas -/

/-- The characters of a list strictly before its first closing brace, the
whole list when no closing brace occurs. -/
def firstSegment : List Char → List Char
  | [] => []
  | c :: rest => if c = '}' then [] else c :: firstSegment rest

theorem splitAtClose_append (a b : List Char) (h : ∀ ch ∈ a, jsDotChar ch = true) :
    splitAtClose (a ++ '}' :: b) = some (firstSegment a) := by
  induction a with
  | nil => simp [splitAtClose, firstSegment]
  | cons c rest ih =>
      by_cases hc : c = '}'
      · simp [splitAtClose, firstSegment, hc]
      · have hdc : jsDotChar c = true := h c (List.mem_cons_self _ _)
        simp [splitAtClose, firstSegment, hc, hdc,
          ih (fun ch hch => h ch (List.mem_cons_of_mem _ hch))]

theorem matchHashTag_braced (c : Char) (t' x : List Char) (hc : jsDotChar c = true)
    (ht : ∀ ch ∈ t', jsDotChar ch = true) :
    matchHashTag ('{' :: ((c :: t') ++ '}' :: x)) = some (c :: firstSegment t') := by
  have hassoc : (c :: t') ++ '}' :: x = c :: (t' ++ '}' :: x) := rfl
  rw [hassoc]
  simp [matchHashTag, tagAt, hc, splitAtClose_append t' x ht]

theorem matchHashTag_eq_none_of_not_brace (cs : List Char) (h : '{' ∉ cs) :
    matchHashTag cs = none := by
  induction cs with
  | nil => rfl
  | cons c rest ih =>
      simp only [List.mem_cons, not_or] at h
      simp [matchHashTag, Ne.symm h.1, ih h.2]

theorem calculateSlot_some (s : String) :
    calculateSlot (some s) =
      if jsTrimEmpty (reduceKey s) then 0 else hashCRC16 (reduceKey s) % 16384 := rfl

theorem reduceKey_eq_of_match (s : String) (t : List Char)
    (h : matchHashTag s.data = some t) : reduceKey s = t := by
  unfold reduceKey
  rw [h]

theorem reduceKey_eq_self_of_none (s : String)
    (h : matchHashTag s.data = none) : reduceKey s = s.data := by
  unfold reduceKey
  rw [h]

/-! ## Claim theorems: slot calculator behaviour -/

set_option maxRecDepth 4000 in
/-- C5 counterexample: the regex dot does not match a line feed, so for
the tag holding one the regex finds no match, the whole key is hashed, and
the slots of the two keys differ. -/
theorem C5_newline_tag_counterexample :
    calculateSlot (some "\x7ba\nb\x7d") ≠ calculateSlot (some "\x7ba\nb\x7dz") := by
  decide

/-- C5 amended: for every non-empty tag none of whose characters is a line
terminator, and all suffixes x and y, a key formed as an opening brace, the
tag, a closing brace and the suffix hashes only the regex-matched tag
content, so the slots of the two keys coincide. -/
theorem C5_hashTag_colocation (tag x y : String) (h : tag ≠ "")
    (hdot : ∀ c ∈ tag.data, jsDotChar c = true) :
    calculateSlot (some ("\x7b" ++ tag ++ "\x7d" ++ x)) =
      calculateSlot (some ("\x7b" ++ tag ++ "\x7d" ++ y)) := by
  obtain ⟨l⟩ := tag
  have hl : l ≠ [] := by
    rintro rfl
    exact h rfl
  obtain ⟨c, t', rfl⟩ := List.exists_cons_of_ne_nil hl
  have hdc : jsDotChar c = true := hdot c (List.mem_cons_self _ _)
  have hdt : ∀ ch ∈ t', jsDotChar ch = true :=
    fun ch hch => hdot ch (List.mem_cons_of_mem _ hch)
  have key_data : ∀ z : String,
      ("\x7b" ++ String.mk (c :: t') ++ "\x7d" ++ z).data =
        '{' :: ((c :: t') ++ '}' :: z.data) := by
    intro z
    rw [String.data_append, String.data_append, String.data_append]
    show ['{'] ++ (c :: t') ++ ['}'] ++ z.data = _
    simp
  have hmatch : ∀ z : String,
      matchHashTag ("\x7b" ++ String.mk (c :: t') ++ "\x7d" ++ z).data =
        some (c :: firstSegment t') := by
    intro z
    rw [key_data z]
    exact matchHashTag_braced c t' z.data hdc hdt
  rw [calculateSlot_some, calculateSlot_some,
    reduceKey_eq_of_match _ _ (hmatch x), reduceKey_eq_of_match _ _ (hmatch y)]

theorem C5_hashTag_colocation_witness :
    calculateSlot (some ("\x7b" ++ "user1" ++ "\x7d" ++ "a")) =
      calculateSlot (some ("\x7b" ++ "user1" ++ "\x7d" ++ "bc")) :=
  C5_hashTag_colocation "user1" "a" "bc" (by decide) (by decide)

/-- C9: an absent key, and a key every character of which is removed by
trimming, are routed to slot 0; the function is total, so no error can be
raised. -/
theorem C9_blank_key_slot_zero (key : Option String)
    (h : key = none ∨ ∃ s, key = some s ∧ jsTrimEmpty s.data = true) :
    calculateSlot key = 0 := by
  rcases h with rfl | ⟨s, rfl, hws⟩
  · rfl
  · have hnb : '{' ∉ s.data := by
      intro hmem
      have hw := List.all_eq_true.mp hws _ hmem
      exact absurd hw (by decide)
    have hred : reduceKey s = s.data :=
      reduceKey_eq_self_of_none s (matchHashTag_eq_none_of_not_brace _ hnb)
    rw [calculateSlot_some, hred, if_pos hws]

theorem C9_blank_key_slot_zero_witness :
    calculateSlot none = 0 ∧ calculateSlot (some "  ") = 0 :=
  ⟨C9_blank_key_slot_zero none (Or.inl rfl),
   C9_blank_key_slot_zero (some "  ") (Or.inr ⟨"  ", rfl, by decide⟩)⟩

/-- C10: when the hash-tag regex matches and the extracted tag content is
whitespace-only, the slot is 0, because the empty-after-trim check runs on
the extracted content rather than on the original key. -/
theorem C10_whitespace_tag_slot_zero (s : String) (tag : List Char)
    (hmatch : matchHashTag s.data = some tag) (hws : jsTrimEmpty tag = true) :
    calculateSlot (some s) = 0 := by
  rw [calculateSlot_some, reduceKey_eq_of_match _ _ hmatch, if_pos hws]

theorem C10_whitespace_tag_slot_zero_witness :
    calculateSlot (some "a\x7b \x7db") = 0 :=
  C10_whitespace_tag_slot_zero "a\x7b \x7db" [' '] (by decide) (by decide)

/-! ## Claim theorems: orchestrator retry policy -/

/-- C2: when the batching-and-execution cycle throws an Error whose message
contains the staleness token, clusterPipeline refreshes the slot-range
snapshot exactly once from the shard-topology reply and re-runs the whole
cycle on the same commands against the refreshed snapshot, surfacing the
second outcome as is; when the thrown error does not match the symptom, it
is surfaced unchanged with no refresh. -/
theorem C2_stale_retry_policy {R : Type}
    (attempt : List SlotRange → List Command → Except JSError R)
    (shardsReply : List ShardEntry) (topo : List SlotRange) (commands : List Command)
    (e : JSError) (herr : attempt topo commands = Except.error e) :
    (staleSymptom e = true →
      clusterPipeline attempt shardsReply topo commands =
        (attempt (updateRedisClusterSlots shardsReply) commands,
          updateRedisClusterSlots shardsReply, 1)) ∧
    (staleSymptom e = false →
      clusterPipeline attempt shardsReply topo commands = (Except.error e, topo, 0)) := by
  constructor <;> intro hs <;> simp [clusterPipeline, herr, hs]

theorem C2_stale_retry_policy_witness :
    clusterPipeline
      (fun (t : List SlotRange) (_ : List Command) =>
        if t.isEmpty then Except.error ⟨true, "failed to refresh slots cache"⟩
        else Except.ok (42 : Nat))
      [⟨"slots", [0, 16383], "nodes", [["id", "n1"]]⟩] [] [] =
      (Except.ok 42, [⟨"n1", 0, some 16383⟩], 1) := by
  have h := (C2_stale_retry_policy
    (fun (t : List SlotRange) (_ : List Command) =>
      if t.isEmpty then Except.error ⟨true, "failed to refresh slots cache"⟩
      else Except.ok (42 : Nat))
    [⟨"slots", [0, 16383], "nodes", [["id", "n1"]]⟩] [] []
    ⟨true, "failed to refresh slots cache"⟩ rfl).1 (by decide)
  rw [h]
  rfl

/-! ## Claim theorems: topology refresh parsing -/

/-- C8: whenever every shard entry of the reply carries an even list of
slot bounds, the refresh parses each shard into one flat slot range per
bound pair, every range of a shard carrying that shard node address, and
the whole list is the new snapshot; a shard with several disjoint bound
pairs yields one correctly bounded range per pair. -/
theorem C8_refresh_parses_ranges (reply : List ShardEntry)
    (pairs : ShardEntry → List (Nat × Nat))
    (h : ∀ s ∈ reply, s.slotRanges = (pairs s).flatMap (fun p => [p.1, p.2])) :
    updateRedisClusterSlots reply =
      reply.flatMap (fun s => (pairs s).map
        (fun p => SlotRange.mk (shardNodeId s) p.1 (some p.2))) := by
  unfold updateRedisClusterSlots
  refine List.flatMap_congr ?_
  intro s hs
  rw [h s hs]
  generalize pairs s = ps
  induction ps with
  | nil => rfl
  | cons p rest ih =>
      simp only [List.flatMap_cons]
      show pairsToRanges (shardNodeId s) (p.1 :: p.2 :: rest.flatMap
        (fun p => [p.1, p.2])) = _
      rw [pairsToRanges, ih]
      rfl

theorem C8_refresh_parses_ranges_witness :
    updateRedisClusterSlots
      [⟨"slots", [0, 100, 200, 300], "nodes", [["id", "nodeA"]]⟩,
       ⟨"slots", [301, 16383], "nodes", [["id", "nodeB"]]⟩] =
      [⟨"nodeA", 0, some 100⟩, ⟨"nodeA", 200, some 300⟩,
       ⟨"nodeB", 301, some 16383⟩] := by
  rw [C8_refresh_parses_ranges
    [⟨"slots", [0, 100, 200, 300], "nodes", [["id", "nodeA"]]⟩,
     ⟨"slots", [301, 16383], "nodes", [["id", "nodeB"]]⟩]
    (fun s => if s.slotRanges.length = 4 then [(0, 100), (200, 300)]
      else [(301, 16383)])
    (by
      intro s hs
      rcases List.mem_cons.mp hs with rfl | hs2
      · rfl
      · rcases List.mem_cons.mp hs2 with rfl | hs3
        · rfl
        · exact absurd hs3 (List.not_mem_nil _))]
  rfl

/-! ## Claim theorems: redirect classification -/

/-- The redirect shape stated by the specification: a two-part error-style
payload whose first element is a structured object carrying the
routing-redirect metadata key. -/
def specTwoPartRedirect (v : JSValue) : Prop :=
  ∃ fields second, v = JSValue.arr [JSValue.obj fields, second] ∧
    "command" ∈ fields.map Prod.fst

/-- C6 counterexample: a one-element array whose single element is an
object carrying the command key is classified as a redirect by the code,
yet it is not a two-part payload, so the claimed iff fails. -/
theorem C6_two_part_counterexample :
    isRedirectionResponse (JSValue.arr [JSValue.obj [("command", JSValue.null)]]) = true ∧
    ¬ specTwoPartRedirect (JSValue.arr [JSValue.obj [("command", JSValue.null)]]) := by
  constructor
  · rfl
  · rintro ⟨fields, second, heq, -⟩
    injection heq with h
    simp at h

/-- C6 amended: a raw result is classified as a redirect signal exactly
when it is an array, of any length, whose first element is a plain object
carrying the routing-redirect metadata key; every other shape, including a
normal application-level error pair, is classified as success and passed
through untouched. -/
theorem C6_redirect_classification (v : JSValue) :
    isRedirectionResponse v = true ↔
      ∃ fields rest, v = JSValue.arr (JSValue.obj fields :: rest) ∧
        "command" ∈ fields.map Prod.fst := by
  constructor
  · intro h
    cases v with
    | arr elems =>
        cases elems with
        | nil => simp [isRedirectionResponse, JSValue.elem0, JSValue.truthy] at h
        | cons hd tl =>
            cases hd with
            | obj fields =>
                refine ⟨fields, tl, rfl, ?_⟩
                have h2 : (fields.any fun f => f.1 == "command") = true := by
                  simpa [isRedirectionResponse, JSValue.elem0, JSValue.truthy,
                    JSValue.typeofObject, JSValue.hasProp] using h
                obtain ⟨f, hf, hfk⟩ := List.any_eq_true.mp h2
                exact List.mem_map.mpr ⟨f, hf, (beq_iff_eq.mp hfk)⟩
            | null => simp [isRedirectionResponse, JSValue.elem0, JSValue.truthy] at h
            | undefined =>
                simp [isRedirectionResponse, JSValue.elem0, JSValue.truthy] at h
            | bool b =>
                simp [isRedirectionResponse, JSValue.elem0, JSValue.typeofObject] at h
            | num n =>
                simp [isRedirectionResponse, JSValue.elem0, JSValue.typeofObject] at h
            | str s =>
                simp [isRedirectionResponse, JSValue.elem0, JSValue.typeofObject] at h
            | arr inner =>
                simp [isRedirectionResponse, JSValue.elem0, JSValue.truthy,
                  JSValue.typeofObject, JSValue.hasProp] at h
    | null => simp [isRedirectionResponse] at h
    | undefined => simp [isRedirectionResponse] at h
    | bool b => simp [isRedirectionResponse] at h
    | num n => simp [isRedirectionResponse] at h
    | str st => simp [isRedirectionResponse] at h
    | obj fields => simp [isRedirectionResponse] at h
  · rintro ⟨fields, rest, rfl, hmem⟩
    simp only [isRedirectionResponse, JSValue.elem0, List.headD_cons, JSValue.truthy,
      JSValue.typeofObject, JSValue.hasProp, Bool.true_and]
    obtain ⟨f, hf, hfk⟩ := List.mem_map.mp hmem
    exact List.any_eq_true.mpr ⟨f, hf, beq_iff_eq.mpr hfk⟩

/-! ## The CRC-16/XMODEM reference computation -/

/-- One bit step of the textbook MSB-first CRC-16 described by the
specification: compare the top crc bit with the next message bit, shift
left, xor in the polynomial 0x1021 when they differ, and keep 16 bits. -/
def crcSpecBit (crc : Nat) (b : Bool) : Nat :=
  if crc.testBit 15 != b then ((crc <<< 1) &&& 0xffff) ^^^ 0x1021
  else (crc <<< 1) &&& 0xffff

/-- Feeding the j low bits of a byte into the bit-serial CRC, most
significant of those bits first. -/
def crcSpecBits (crc : Nat) (byte : Nat) : Nat → Nat
  | 0 => crc
  | j + 1 => crcSpecBits (crcSpecBit crc (byte.testBit j)) byte j

/-- Feeding a whole byte, most significant bit first. -/
def crcSpecByte (crc byte : Nat) : Nat :=
  crcSpecBits crc byte 8

/-- The CRC-16/XMODEM of a byte sequence as worded by the specification:
initial value 0, polynomial 0x1021, bits fed most significant first, no
initial and no final xor. -/
def crc16Xmodem (bytes : List Nat) : Nat :=
  bytes.foldl crcSpecByte 0

theorem and_0x8000_ne_zero (x : Nat) : (x &&& 0x8000 ≠ 0) ↔ x.testBit 15 = true := by
  rw [show (0x8000 : Nat) = 2 ^ 15 by norm_num, Nat.and_two_pow]
  cases h : x.testBit 15 <;> simp

theorem crc16Round_eq (x : Nat) :
    crc16Round x = ((x <<< 1) ^^^ (if x.testBit 15 then 0x1021 else 0)) &&& 0xffff := by
  unfold crc16Round
  by_cases h : x.testBit 15 = true
  · rw [if_pos ((and_0x8000_ne_zero x).mpr h), if_pos h]
  · rw [if_neg (fun hc => h ((and_0x8000_ne_zero x).mp hc)), if_neg h, Nat.xor_zero]

theorem crcSpecBit_eq (c : Nat) (b : Bool) :
    crcSpecBit c b =
      ((c <<< 1) &&& 0xffff) ^^^ (if c.testBit 15 != b then 0x1021 else 0) := by
  unfold crcSpecBit
  by_cases h : (c.testBit 15 != b) = true
  · rw [if_pos h, if_pos h]
  · rw [if_neg h, if_neg h, Nat.xor_zero]

theorem xor_shiftLeft_distrib (a b n : Nat) :
    (a ^^^ b) <<< n = (a <<< n) ^^^ (b <<< n) := by
  apply Nat.eq_of_testBit_eq
  intro i
  rw [Nat.testBit_xor, Nat.testBit_shiftLeft, Nat.testBit_shiftLeft,
    Nat.testBit_shiftLeft, Nat.testBit_xor]
  by_cases h : n ≤ i <;> simp [h]

theorem shiftLeft_shiftLeft_add (a m n : Nat) : (a <<< m) <<< n = a <<< (m + n) := by
  simp [Nat.shiftLeft_eq, pow_add, mul_assoc]

theorem shiftLeft_and_mask (rest j : Nat) (hj : j ≤ 8) :
    (rest <<< (16 - j)) &&& 0xffff = (rest % 2 ^ j) <<< (16 - j) := by
  apply Nat.eq_of_testBit_eq
  intro i
  rw [show (0xffff : Nat) = 2 ^ 16 - 1 by norm_num]
  rw [Nat.testBit_and, Nat.testBit_shiftLeft, Nat.testBit_shiftLeft,
    Nat.testBit_two_pow_sub_one, Nat.testBit_mod_two_pow]
  by_cases h1 : 16 - j ≤ i
  · by_cases h2 : i < 16
    · have h3 : i - (16 - j) < j := by omega
      simp [h1, h2, h3]
    · have h3 : ¬ (i - (16 - j) < j) := by omega
      simp [h2, h3]
  · simp [h1]

theorem crc16Round_split (c rest j : Nat) (hj : j ≤ 7) :
    crc16Round (c ^^^ (rest <<< (15 - j))) =
      crcSpecBit c (rest.testBit j) ^^^ ((rest % 2 ^ j) <<< (16 - j)) := by
  rw [crc16Round_eq, crcSpecBit_eq]
  have htop : (c ^^^ (rest <<< (15 - j))).testBit 15 =
      (c.testBit 15 != rest.testBit j) := by
    rw [Nat.testBit_xor, Nat.testBit_shiftLeft]
    have h15 : (15 : Nat) ≥ 15 - j := by omega
    have heq : 15 - (15 - j) = j := by omega
    rw [heq]
    simp [h15]
  rw [htop]
  have hshift : (c ^^^ (rest <<< (15 - j))) <<< 1 = (c <<< 1) ^^^ (rest <<< (16 - j)) := by
    rw [xor_shiftLeft_distrib, shiftLeft_shiftLeft_add]
    have heq : 15 - j + 1 = 16 - j := by omega
    rw [heq]
  rw [hshift, Nat.xor_assoc, Nat.and_xor_distrib_right, Nat.and_xor_distrib_right,
    shiftLeft_and_mask rest j (by omega)]
  have hmask : (if (c.testBit 15 != rest.testBit j) then (0x1021 : Nat) else 0) &&& 0xffff =
      (if (c.testBit 15 != rest.testBit j) then (0x1021 : Nat) else 0) := by
    split
    · decide
    · decide
  rw [hmask]
  rw [Nat.xor_comm ((rest % 2 ^ j) <<< (16 - j)) _, ← Nat.xor_assoc]

theorem crcInner_eq_crcSpecBits :
    ∀ (j : Nat), j ≤ 8 → ∀ (c rest : Nat),
      crcInner (c ^^^ ((rest % 2 ^ j) <<< (16 - j))) j = crcSpecBits c rest j := by
  intro j
  induction j with
  | zero =>
      intro _ c rest
      simp [crcInner, crcSpecBits, Nat.mod_one]
  | succ j ih =>
      intro hj c rest
      show crcInner (crc16Round (c ^^^ ((rest % 2 ^ (j + 1)) <<< (16 - (j + 1))))) j = _
      have h1 : 16 - (j + 1) = 15 - j := by omega
      rw [h1, crc16Round_split c (rest % 2 ^ (j + 1)) j (by omega)]
      have h2 : (rest % 2 ^ (j + 1)).testBit j = rest.testBit j := by
        rw [Nat.testBit_mod_two_pow]
        simp
      have h3 : rest % 2 ^ (j + 1) % 2 ^ j = rest % 2 ^ j :=
        Nat.mod_mod_of_dvd rest (pow_dvd_pow 2 (by omega))
      rw [h2, h3, ih (by omega) (crcSpecBit c (rest.testBit j)) rest]
      rfl

theorem crc16_byteStep_eq (c byte : Nat) (hb : byte < 256) :
    crcInner (c ^^^ (byte <<< 8)) 8 = crcSpecByte c byte := by
  have h := crcInner_eq_crcSpecBits 8 (le_refl 8) c byte
  have h256 : (2 : Nat) ^ 8 = 256 := by norm_num
  rw [Nat.mod_eq_of_lt (by omega)] at h
  exact h

theorem crc16BytesCode_eq_spec (bytes : List Nat) (hb : ∀ b ∈ bytes, b < 256) :
    crc16BytesCode bytes = crc16Xmodem bytes := by
  unfold crc16BytesCode crc16Xmodem
  suffices h : ∀ c, bytes.foldl (fun crc byte => crcInner (crc ^^^ (byte <<< 8)) 8) c =
      bytes.foldl crcSpecByte c from h 0
  induction bytes with
  | nil => intro c; rfl
  | cons b rest ih =>
      intro c
      simp only [List.foldl_cons]
      rw [crc16_byteStep_eq c b (hb b (List.mem_cons_self _ _))]
      exact ih (fun x hx => hb x (List.mem_cons_of_mem _ hx)) _

theorem utf8EncodeChar_lt (c : Nat) (hc : c < 1114112) :
    ∀ b ∈ utf8EncodeChar c, b < 256 := by
  intro b hb
  by_cases h1 : c < 0x80
  · simp [utf8EncodeChar, h1] at hb
    omega
  · by_cases h2 : c < 0x800
    · simp [utf8EncodeChar, h1, h2] at hb
      rcases hb with rfl | rfl <;> omega
    · by_cases h3 : c < 0x10000
      · simp [utf8EncodeChar, h1, h2, h3] at hb
        rcases hb with rfl | rfl | rfl <;> omega
      · simp [utf8EncodeChar, h1, h2, h3] at hb
        rcases hb with rfl | rfl | rfl | rfl <;> omega

theorem utf8Bytes_lt (cs : List Char) : ∀ b ∈ utf8Bytes cs, b < 256 := by
  intro b hb
  obtain ⟨c, hc, hbc⟩ := List.mem_flatMap.mp hb
  have hval : c.toNat < 1114112 := by
    rcases c.valid with h | ⟨h1, h2⟩
    · exact lt_trans h (by norm_num)
    · exact h2
  exact utf8EncodeChar_lt c.toNat hval b hbc

/-! ## Claim theorems: the slot formula -/

/-- C4 counterexample: the whitespace-only key routes to slot 0, but the
CRC-16/XMODEM of its UTF-8 bytes modulo 16384 is 9314, so the claimed
formula does not hold for every key. -/
theorem C4_whitespace_key_counterexample :
    calculateSlot (some " ") ≠ crc16Xmodem (utf8Bytes (" ").data) % 16384 := by
  decide

/-- C4 amended: every slot is in the interval from 0 up to excluding
16384, and for every key whose hash-tag-reduced content is not
whitespace-only the slot equals the CRC-16/XMODEM of the UTF-8 bytes of
the reduced content, taken modulo 16384. -/
theorem C4_slot_is_crc16_xmodem_mod :
    (∀ key, calculateSlot key < 16384) ∧
    (∀ s : String, jsTrimEmpty (reduceKey s) = false →
      calculateSlot (some s) = crc16Xmodem (utf8Bytes (reduceKey s)) % 16384) := by
  constructor
  · intro key
    cases key with
    | none => norm_num [calculateSlot]
    | some s =>
        rw [calculateSlot_some]
        split
        · norm_num
        · exact Nat.mod_lt _ (by norm_num)
  · intro s hts
    rw [calculateSlot_some, if_neg (by simp [hts])]
    unfold hashCRC16
    rw [crc16BytesCode_eq_spec _ (utf8Bytes_lt _)]

theorem C4_slot_is_crc16_xmodem_mod_witness :
    calculateSlot (some "foo") < 16384 ∧
    jsTrimEmpty (reduceKey "foo") = false ∧
    calculateSlot (some "foo") = crc16Xmodem (utf8Bytes (reduceKey "foo")) % 16384 :=
  ⟨C4_slot_is_crc16_xmodem_mod.1 (some "foo"), by decide,
   C4_slot_is_crc16_xmodem_mod.2 "foo" (by decide)⟩

end PwRedis
